import Mathlib

/-!
Verification of the next-state client state container.

The development embeds, directly from the TypeScript sources:
  * the two `deepMerge` variants of `src/utils/utils.ts`,
  * the middleware registry (`src/middleware-registry.ts`, both variants),
  * the `createNextState` middleware chain of `src/core.ts`,
  * the `MigrationManager` and the stored-state loader,
  * the store commit of the `create` function (heap model).

JavaScript values are modelled by `JSVal`: numbers as integers (every value
the specification exercises is integral), objects as association lists in
property-insertion order, arrays as element lists.
-/

/-- A JavaScript runtime value, restricted to the JSON-like fragment the
state container manipulates. -/
inductive JSVal where
  | vUndefined : JSVal
  | vNull : JSVal
  | vBool : Bool → JSVal
  | vNum : Int → JSVal
  | vStr : String → JSVal
  | vArr : List JSVal → JSVal
  | vObj : List (String × JSVal) → JSVal

/-- JavaScript truthiness (`!!v`).  `NaN` is outside the embedded fragment. -/
def truthy : JSVal → Bool
  | .vUndefined => false
  | .vNull => false
  | .vBool b => b
  | .vNum n => n != 0
  | .vStr s => s != ""
  | .vArr _ => true
  | .vObj _ => true

/-- Evaluates `typeof v === "object"` (true for `null`, arrays and plain objects). -/
def isObjectType : JSVal → Bool
  | .vNull => true
  | .vArr _ => true
  | .vObj _ => true
  | _ => false

/-- Evaluates `Array.isArray(v)`. -/
def isArrayV : JSVal → Bool
  | .vArr _ => true
  | _ => false

/-- Own enumerable properties of an array: its indices, as decimal strings. -/
def arrFields (i : Nat) : List JSVal → List (String × JSVal)
  | [] => []
  | v :: rest => (toString i, v) :: arrFields (i + 1) rest

/-- Own enumerable properties of a value, as seen by object spread and
`for ... in` / `hasOwnProperty`: an object's entries, an array's indexed
elements, a string's indexed one-character strings, nothing otherwise. -/
def fieldsOf : JSVal → List (String × JSVal)
  | .vObj fs => fs
  | .vArr es => arrFields 0 es
  | .vStr s => arrFields 0 (s.data.map (fun c => JSVal.vStr (String.singleton c)))
  | _ => []

/-- First binding of `key`, i.e. `obj[key]` for an association list. -/
def lookupField : List (String × JSVal) → String → Option JSVal
  | [], _ => none
  | (k, v) :: rest, key => if k = key then some v else lookupField rest key

/-- Property assignment `obj[key] = v`: overwrite in place, else append. -/
def setField : List (String × JSVal) → String → JSVal → List (String × JSVal)
  | [], key, v => [(key, v)]
  | (k, w) :: rest, key, v =>
      if k = key then (k, v) :: rest else (k, w) :: setField rest key v

/-- The keys of an association list, in order. -/
def fieldKeys (fs : List (String × JSVal)) : List String := fs.map Prod.fst

theorem mem_of_mem_arrFields {k : String} {v : JSVal} :
    ∀ {i : Nat} {es : List JSVal}, (k, v) ∈ arrFields i es → v ∈ es := by
  intro i es
  induction es generalizing i with
  | nil => simp [arrFields]
  | cons a rest ih =>
      intro h
      simp only [arrFields, List.mem_cons] at h
      rcases h with h | h
      · exact (Prod.mk.injEq _ _ _ _ ▸ h).2 ▸ List.mem_cons_self a rest
      · exact List.mem_cons_of_mem a (ih h)

theorem sizeOf_lt_of_fieldsOf_obj {s v : JSVal} {k : String}
    (hm : (k, v) ∈ fieldsOf s) (hv : isObjectType v = true) : sizeOf v < sizeOf s := by
  cases s with
  | vObj fs =>
      have h1 : sizeOf (k, v) < sizeOf fs := List.sizeOf_lt_of_mem hm
      simp only [Prod.mk.sizeOf_spec] at h1
      simp only [JSVal.vObj.sizeOf_spec]
      omega
  | vArr es =>
      have hmem : v ∈ es := mem_of_mem_arrFields hm
      have h1 : sizeOf v < sizeOf es := List.sizeOf_lt_of_mem hmem
      simp only [JSVal.vArr.sizeOf_spec]
      omega
  | vStr s =>
      exfalso
      have : v ∈ s.data.map (fun c => JSVal.vStr (String.singleton c)) :=
        mem_of_mem_arrFields hm
      rcases List.mem_map.mp this with ⟨c, _, rfl⟩
      simp [isObjectType] at hv
  | vUndefined => simp [fieldsOf] at hm
  | vNull => simp [fieldsOf] at hm
  | vBool b => simp [fieldsOf] at hm
  | vNum n => simp [fieldsOf] at hm

mutual

/-- The function `deepMerge` from `src/utils/utils.ts` lines 47-63:
```
if (!source || typeof source !== 'object') return source;
if (!target || typeof target !== 'object') return target;
const result = { ...target };
for (const key in source) if (hasOwnProperty(source, key)) {
  const sourceValue = source[key]; const targetValue = target[key];
  result[key] = (sourceValue && typeof sourceValue === 'object' && targetValue)
    ? deepMerge(targetValue, sourceValue) : sourceValue;
}
return result;
``` -/
def deepMerge (target source : JSVal) : JSVal :=
  if (truthy source && isObjectType source) = true then
    if (truthy target && isObjectType target) = true then
      JSVal.vObj (dmLoop (fieldsOf target) source (fieldsOf target) (fieldsOf source).attach)
    else target
  else source
termination_by (sizeOf source, 1, 0)
decreasing_by
  simp_wf
  exact Prod.Lex.right _ (Prod.Lex.left _ _ Nat.zero_lt_one)

/-- The `for ... in` body of the first `deepMerge`; `tF` is the original
target's field list (the code reads `target[key]`), `acc` the result being
built, the last argument the remaining source entries. -/
def dmLoop (tF : List (String × JSVal)) (source : JSVal)
    (acc : List (String × JSVal)) :
    List { p : String × JSVal // p ∈ fieldsOf source } → List (String × JSVal)
  | [] => acc
  | ⟨(k, sv), hm⟩ :: rest =>
      let tv := (lookupField tF k).getD JSVal.vUndefined
      let newV :=
        if h : (truthy sv && isObjectType sv && truthy tv) = true then
          deepMerge tv sv
        else sv
      dmLoop tF source (setField acc k newV) rest
termination_by rest => (sizeOf source, 0, rest.length)
decreasing_by
  · have hobj : isObjectType sv = true := by
      cases hx : isObjectType sv
      · rw [hx] at h; simp at h
      · rfl
    simp_wf
    exact Prod.Lex.left _ _ (sizeOf_lt_of_fieldsOf_obj hm hobj)
  · simp_wf
    exact Prod.Lex.right _ (Prod.Lex.right _ (Nat.lt_succ_self _))

end

mutual

/-- The second `deepMerge` variant, `src/utils/utils.ts` lines 131-144:
```
const result = { ...target };
for (const key in source) {
  const value = source[key];
  if (value && typeof value === 'object' && !Array.isArray(value)) {
    result[key] = deepMerge(result[key] as object, value as object) as any;
  } else {
    result[key] = value as any;
  }
}
return result;
```
Unlike the first variant it has no guards, reads the accumulated
`result[key]`, and excludes arrays from the recursion. -/
def deepMergeV2 (target source : JSVal) : JSVal :=
  JSVal.vObj (dmLoop2 source (fieldsOf target) (fieldsOf source).attach)
termination_by (sizeOf source, 1, 0)
decreasing_by
  simp_wf
  exact Prod.Lex.right _ (Prod.Lex.left _ _ Nat.zero_lt_one)

/-- The `for ... in` body of the second `deepMerge`. -/
def dmLoop2 (source : JSVal) (acc : List (String × JSVal)) :
    List { p : String × JSVal // p ∈ fieldsOf source } → List (String × JSVal)
  | [] => acc
  | ⟨(k, sv), hm⟩ :: rest =>
      let newV :=
        if h : (truthy sv && isObjectType sv && !isArrayV sv) = true then
          deepMergeV2 ((lookupField acc k).getD JSVal.vUndefined) sv
        else sv
      dmLoop2 source (setField acc k newV) rest
termination_by rest => (sizeOf source, 0, rest.length)
decreasing_by
  · have hobj : isObjectType sv = true := by
      cases hx : isObjectType sv
      · rw [hx] at h; simp at h
      · rfl
    simp_wf
    exact Prod.Lex.left _ _ (sizeOf_lt_of_fieldsOf_obj hm hobj)
  · simp_wf
    exact Prod.Lex.right _ (Prod.Lex.right _ (Nat.lt_succ_self _))

end

/-- Non-dependent restatement of `dmLoop`, used for reasoning. -/
def dmLoopSpec (tF : List (String × JSVal)) (acc : List (String × JSVal)) :
    List (String × JSVal) → List (String × JSVal)
  | [] => acc
  | (k, sv) :: rest =>
      dmLoopSpec tF
        (setField acc k
          (if (truthy sv && isObjectType sv &&
                truthy ((lookupField tF k).getD JSVal.vUndefined)) = true then
            deepMerge ((lookupField tF k).getD JSVal.vUndefined) sv
          else sv))
        rest

/-- Non-dependent restatement of `dmLoop2`, used for reasoning. -/
def dmLoop2Spec (acc : List (String × JSVal)) :
    List (String × JSVal) → List (String × JSVal)
  | [] => acc
  | (k, sv) :: rest =>
      dmLoop2Spec
        (setField acc k
          (if (truthy sv && isObjectType sv && !isArrayV sv) = true then
            deepMergeV2 ((lookupField acc k).getD JSVal.vUndefined) sv
          else sv))
        rest

theorem dmLoop_eq_spec {source : JSVal} :
    ∀ (l : List { p : String × JSVal // p ∈ fieldsOf source })
      (tF acc : List (String × JSVal)),
      dmLoop tF source acc l = dmLoopSpec tF acc (l.map Subtype.val) := by
  intro l
  induction l with
  | nil => intro tF acc; simp [dmLoop, dmLoopSpec]
  | cons hd rest ih =>
      intro tF acc
      obtain ⟨⟨k, sv⟩, hm⟩ := hd
      simp only [dmLoop, List.map_cons, dmLoopSpec, dite_eq_ite]
      exact ih tF _

theorem dmLoop2_eq_spec {source : JSVal} :
    ∀ (l : List { p : String × JSVal // p ∈ fieldsOf source })
      (acc : List (String × JSVal)),
      dmLoop2 source acc l = dmLoop2Spec acc (l.map Subtype.val) := by
  intro l
  induction l with
  | nil => intro acc; simp [dmLoop2, dmLoop2Spec]
  | cons hd rest ih =>
      intro acc
      obtain ⟨⟨k, sv⟩, hm⟩ := hd
      simp only [dmLoop2, List.map_cons, dmLoop2Spec, dite_eq_ite]
      exact ih _

/-- The first `deepMerge` on two plain objects runs the field loop. -/
theorem deepMerge_obj_obj (S U : List (String × JSVal)) :
    deepMerge (JSVal.vObj S) (JSVal.vObj U) = JSVal.vObj (dmLoopSpec S S U) := by
  rw [deepMerge]
  simp only [truthy, isObjectType, Bool.and_self, if_pos rfl]
  rw [dmLoop_eq_spec]
  simp [fieldsOf]

/-- The first `deepMerge` returns the source verbatim when the source is
not a truthy object. -/
theorem deepMerge_source_first {t s : JSVal}
    (h : (truthy s && isObjectType s) = false) : deepMerge t s = s := by
  rw [deepMerge, h]
  simp

/-- The first `deepMerge` returns the target verbatim when the source is a
truthy object but the target is not. -/
theorem deepMerge_target_second {t s : JSVal}
    (hs : (truthy s && isObjectType s) = true)
    (ht : (truthy t && isObjectType t) = false) : deepMerge t s = t := by
  rw [deepMerge, hs, ht]
  simp

/-- The second `deepMerge` always spreads the target and runs the loop. -/
theorem deepMergeV2_eq (t s : JSVal) :
    deepMergeV2 t s = JSVal.vObj (dmLoop2Spec (fieldsOf t) (fieldsOf s)) := by
  rw [deepMergeV2, dmLoop2_eq_spec]
  simp

/-- Reads `obj[key]` at the value level; `none` on non-objects. -/
def objLookup : JSVal → String → Option JSVal
  | .vObj fs, k => lookupField fs k
  | _, _ => none

/-- The key list of an object value. -/
def objKeys : JSVal → List String
  | .vObj fs => fieldKeys fs
  | _ => []

/-- The value the first `deepMerge` stores for a source entry `(k, sv)`
against original target fields `tF`. -/
def mergeVal1 (tF : List (String × JSVal)) (k : String) (sv : JSVal) : JSVal :=
  if (truthy sv && isObjectType sv &&
      truthy ((lookupField tF k).getD JSVal.vUndefined)) = true then
    deepMerge ((lookupField tF k).getD JSVal.vUndefined) sv
  else sv

theorem lookup_setField_self (fs : List (String × JSVal)) (k : String) (v : JSVal) :
    lookupField (setField fs k v) k = some v := by
  induction fs with
  | nil => simp [setField, lookupField]
  | cons p rest ih =>
      obtain ⟨k0, w⟩ := p
      by_cases h : k0 = k
      · simp [setField, lookupField, h]
      · simp [setField, lookupField, h, ih]

theorem lookup_setField_ne (fs : List (String × JSVal)) {k k' : String}
    (h : k' ≠ k) (v : JSVal) :
    lookupField (setField fs k' v) k = lookupField fs k := by
  induction fs with
  | nil => simp [setField, lookupField, h]
  | cons p rest ih =>
      obtain ⟨k0, w⟩ := p
      by_cases h0 : k0 = k'
      · subst h0
        simp [setField, lookupField, h]
      · simp only [setField, if_neg h0]
        by_cases h1 : k0 = k
        · simp [lookupField, h1]
        · simp [lookupField, h1, ih]

theorem mem_fieldKeys_setField {fs : List (String × JSVal)} {k : String}
    (k' : String) (v : JSVal) (h : k ∈ fieldKeys fs) :
    k ∈ fieldKeys (setField fs k' v) := by
  induction fs with
  | nil => simp [fieldKeys] at h
  | cons p rest ih =>
      obtain ⟨k0, w⟩ := p
      by_cases h0 : k0 = k'
      · simpa [setField, h0, fieldKeys] using h
      · simp only [fieldKeys, List.map_cons, List.mem_cons] at h
        rcases h with h | h
        · simp [setField, h0, fieldKeys, h]
        · simp only [setField, if_neg h0, fieldKeys, List.map_cons, List.mem_cons]
          exact Or.inr (ih h)

theorem dmLoopSpec_lookup_not_mem {k : String} :
    ∀ (l : List (String × JSVal)) (tF acc : List (String × JSVal)),
      (∀ p ∈ l, p.1 ≠ k) →
      lookupField (dmLoopSpec tF acc l) k = lookupField acc k := by
  intro l
  induction l with
  | nil => intro tF acc _; simp [dmLoopSpec]
  | cons p rest ih =>
      intro tF acc h
      obtain ⟨k0, sv⟩ := p
      have hk0 : k0 ≠ k := h (k0, sv) (List.mem_cons_self _ _)
      simp only [dmLoopSpec]
      rw [ih tF _ (fun q hq => h q (List.mem_cons_of_mem _ hq))]
      exact lookup_setField_ne acc hk0 _

theorem dmLoopSpec_keys_superset {k : String} :
    ∀ (l : List (String × JSVal)) (tF acc : List (String × JSVal)),
      k ∈ fieldKeys acc → k ∈ fieldKeys (dmLoopSpec tF acc l) := by
  intro l
  induction l with
  | nil => intro tF acc h; simpa [dmLoopSpec] using h
  | cons p rest ih =>
      intro tF acc h
      obtain ⟨k0, sv⟩ := p
      simp only [dmLoopSpec]
      exact ih tF _ (mem_fieldKeys_setField k0 _ h)

theorem dmLoopSpec_lookup_of_mem {k : String} {sv : JSVal} :
    ∀ (l : List (String × JSVal)) (tF acc : List (String × JSVal)),
      l.Pairwise (fun a b => a.1 ≠ b.1) → (k, sv) ∈ l →
      lookupField (dmLoopSpec tF acc l) k = some (mergeVal1 tF k sv) := by
  intro l
  induction l with
  | nil => intro tF acc _ h; simp at h
  | cons p rest ih =>
      intro tF acc hpw hm
      obtain ⟨k0, sv0⟩ := p
      rcases List.mem_cons.mp hm with h | h
      · obtain ⟨rfl, rfl⟩ := Prod.mk.injEq _ _ _ _ ▸ h
        simp only [dmLoopSpec]
        have hrest : ∀ q ∈ rest, q.1 ≠ k := by
          intro q hq
          exact fun hqk => (List.pairwise_cons.mp hpw).1 q hq (hqk ▸ rfl) |>.elim
        rw [dmLoopSpec_lookup_not_mem rest tF _ hrest, lookup_setField_self]
        rfl
      · simp only [dmLoopSpec]
        exact ih tF _ (List.pairwise_cons.mp hpw).2 h

theorem dmLoop2Spec_lookup_not_mem {k : String} :
    ∀ (l : List (String × JSVal)) (acc : List (String × JSVal)),
      (∀ p ∈ l, p.1 ≠ k) →
      lookupField (dmLoop2Spec acc l) k = lookupField acc k := by
  intro l
  induction l with
  | nil => intro acc _; simp [dmLoop2Spec]
  | cons p rest ih =>
      intro acc h
      obtain ⟨k0, sv⟩ := p
      have hk0 : k0 ≠ k := h (k0, sv) (List.mem_cons_self _ _)
      simp only [dmLoop2Spec]
      rw [ih _ (fun q hq => h q (List.mem_cons_of_mem _ hq))]
      exact lookup_setField_ne acc hk0 _

theorem dmLoop2Spec_keys_superset {k : String} :
    ∀ (l : List (String × JSVal)) (acc : List (String × JSVal)),
      k ∈ fieldKeys acc → k ∈ fieldKeys (dmLoop2Spec acc l) := by
  intro l
  induction l with
  | nil => intro acc h; simpa [dmLoop2Spec] using h
  | cons p rest ih =>
      intro acc h
      obtain ⟨k0, sv⟩ := p
      simp only [dmLoop2Spec]
      exact ih _ (mem_fieldKeys_setField k0 _ h)

theorem dmLoop2Spec_lookup_flat {k : String} {sv : JSVal}
    (hflat : (truthy sv && isObjectType sv && !isArrayV sv) = false) :
    ∀ (l : List (String × JSVal)) (acc : List (String × JSVal)),
      l.Pairwise (fun a b => a.1 ≠ b.1) → (k, sv) ∈ l →
      lookupField (dmLoop2Spec acc l) k = some sv := by
  intro l
  induction l with
  | nil => intro acc _ h; simp at h
  | cons p rest ih =>
      intro acc hpw hm
      obtain ⟨k0, sv0⟩ := p
      rcases List.mem_cons.mp hm with h | h
      · obtain ⟨rfl, rfl⟩ := Prod.mk.injEq _ _ _ _ ▸ h
        simp only [dmLoop2Spec]
        have hrest : ∀ q ∈ rest, q.1 ≠ k := by
          intro q hq
          exact fun hqk => (List.pairwise_cons.mp hpw).1 q hq (hqk ▸ rfl) |>.elim
        rw [dmLoop2Spec_lookup_not_mem rest _ hrest, hflat, if_neg (by simp)]
        exact lookup_setField_self acc k sv
      · simp only [dmLoop2Spec]
        exact ih _ (List.pairwise_cons.mp hpw).2 h

theorem mem_of_lookupField_eq_some {k : String} {v : JSVal} :
    ∀ {fs : List (String × JSVal)}, lookupField fs k = some v → (k, v) ∈ fs := by
  intro fs
  induction fs with
  | nil => intro h; simp [lookupField] at h
  | cons p rest ih =>
      intro h
      obtain ⟨k0, w⟩ := p
      by_cases h0 : k0 = k
      · subst h0
        rw [lookupField, if_pos rfl] at h
        obtain rfl : w = v := Option.some.injEq _ _ ▸ h
        exact List.mem_cons_self _ _
      · rw [lookupField, if_neg h0] at h
        exact List.mem_cons_of_mem _ (ih h)

/-- C1.  The claim's per-key rule ("recurse exactly when both values are
plain objects, otherwise take the update's value") is falsified by both
`deepMerge` variants.  First variant: `S = {a: 1}`, `U = {a: {b: 2}}` — the
values are not both plain objects, so the claim demands `result.a = {b: 2}`,
but the code's truthiness guard recurses into `deepMerge(1, {b: 2})`, which
returns the old target value `1`.  Second variant: `S = {a: [1]}`,
`U = {a: {b: 2}}` — the claim demands `result.a = {b: 2}`, but the code
spreads the array and produces `{0: 1, b: 2}`. -/
theorem claimC1_counterexample :
    deepMerge (JSVal.vObj [("a", JSVal.vNum 1)])
        (JSVal.vObj [("a", JSVal.vObj [("b", JSVal.vNum 2)])]) =
      JSVal.vObj [("a", JSVal.vNum 1)] ∧
    JSVal.vObj [("a", JSVal.vNum 1)] ≠
      JSVal.vObj [("a", JSVal.vObj [("b", JSVal.vNum 2)])] ∧
    deepMergeV2 (JSVal.vObj [("a", JSVal.vArr [JSVal.vNum 1])])
        (JSVal.vObj [("a", JSVal.vObj [("b", JSVal.vNum 2)])]) =
      JSVal.vObj [("a", JSVal.vObj [("0", JSVal.vNum 1), ("b", JSVal.vNum 2)])] ∧
    JSVal.vObj [("a", JSVal.vObj [("0", JSVal.vNum 1), ("b", JSVal.vNum 2)])] ≠
      JSVal.vObj [("a", JSVal.vObj [("b", JSVal.vNum 2)])] := by
  refine ⟨?_, by simp, ?_, by simp⟩
  · simp [deepMerge_obj_obj, dmLoopSpec, setField, lookupField, truthy, isObjectType,
      fieldsOf, deepMerge_target_second]
  · simp [deepMergeV2_eq, dmLoop2Spec, setField, lookupField, truthy, isObjectType,
      isArrayV, fieldsOf, arrFields, show toString (0 : Nat) = "0" from rfl]

/-- C1 (amended).  For plain objects `S`, `U` (`U` with distinct keys),
`deepMerge S U` maps every key of `S` not set in `U` to `S`'s value, and
maps every key set in `U` holding `sv` to `deepMerge(S[k], sv)` whenever
`sv` is a truthy `typeof === "object"` value and `S[k]` is truthy (this
recursion returns `S[k]` unchanged when `S[k]` is not itself an object),
and to `sv` otherwise; the spec's concrete example still holds. -/
theorem claimC1_amended :
    (∀ (S U : List (String × JSVal)),
        U.Pairwise (fun a b => a.1 ≠ b.1) →
        (∀ k, k ∈ fieldKeys S → k ∉ fieldKeys U →
          objLookup (deepMerge (JSVal.vObj S) (JSVal.vObj U)) k = lookupField S k) ∧
        (∀ k sv, lookupField U k = some sv →
          objLookup (deepMerge (JSVal.vObj S) (JSVal.vObj U)) k =
            some (mergeVal1 S k sv))) ∧
    deepMerge
        (JSVal.vObj [("a", JSVal.vNum 1),
          ("b", JSVal.vObj [("c", JSVal.vNum 2), ("d", JSVal.vNum 3)])])
        (JSVal.vObj [("b", JSVal.vObj [("c", JSVal.vNum 9)])]) =
      JSVal.vObj [("a", JSVal.vNum 1),
        ("b", JSVal.vObj [("c", JSVal.vNum 9), ("d", JSVal.vNum 3)])] := by
  constructor
  · intro S U hpw
    constructor
    · intro k hkS hkU
      rw [deepMerge_obj_obj]
      simp only [objLookup]
      refine dmLoopSpec_lookup_not_mem U S S (fun p hp hpk => hkU ?_)
      exact hpk ▸ List.mem_map_of_mem Prod.fst hp
    · intro k sv hk
      rw [deepMerge_obj_obj]
      simp only [objLookup]
      exact dmLoopSpec_lookup_of_mem U S S hpw (mem_of_lookupField_eq_some hk)
  · simp [deepMerge_obj_obj, dmLoopSpec, setField, lookupField, truthy, isObjectType,
      fieldsOf]

/-- Witness for C1 (amended) at `S = {x: 5}`, `U = {y: 7}`, key `x`. -/
theorem claimC1_amended_witness :
    objLookup (deepMerge (JSVal.vObj [("x", JSVal.vNum 5)])
      (JSVal.vObj [("y", JSVal.vNum 7)])) "x" = some (JSVal.vNum 5) := by
  have h := (claimC1_amended.1 [("x", JSVal.vNum 5)] [("y", JSVal.vNum 7)]
    (by simp)).1 "x" (by simp [fieldKeys]) (by simp [fieldKeys])
  simpa [lookupField] using h

/-- C10.  Both `deepMerge` variants never delete a key: every key of the
target stays in the result, and a key the source maps to `undefined` or
`null` remains present, bound to the source's value. -/
theorem claimC10_no_key_deletion :
    (∀ (S U : List (String × JSVal)) (k : String), k ∈ fieldKeys S →
        k ∈ objKeys (deepMerge (JSVal.vObj S) (JSVal.vObj U))) ∧
    (∀ (S U : List (String × JSVal)) (k : String) (sv : JSVal),
        U.Pairwise (fun a b => a.1 ≠ b.1) →
        (sv = JSVal.vUndefined ∨ sv = JSVal.vNull) →
        lookupField U k = some sv →
        objLookup (deepMerge (JSVal.vObj S) (JSVal.vObj U)) k = some sv) ∧
    (∀ (S U : List (String × JSVal)) (k : String), k ∈ fieldKeys S →
        k ∈ objKeys (deepMergeV2 (JSVal.vObj S) (JSVal.vObj U))) ∧
    (∀ (S U : List (String × JSVal)) (k : String) (sv : JSVal),
        U.Pairwise (fun a b => a.1 ≠ b.1) →
        (sv = JSVal.vUndefined ∨ sv = JSVal.vNull) →
        lookupField U k = some sv →
        objLookup (deepMergeV2 (JSVal.vObj S) (JSVal.vObj U)) k = some sv) := by
  refine ⟨?_, ?_, ?_, ?_⟩
  · intro S U k hk
    rw [deepMerge_obj_obj]
    simp only [objKeys]
    exact dmLoopSpec_keys_superset U S S hk
  · intro S U k sv hpw hsv hk
    rw [deepMerge_obj_obj]
    simp only [objLookup]
    rw [dmLoopSpec_lookup_of_mem U S S hpw (mem_of_lookupField_eq_some hk)]
    rcases hsv with rfl | rfl <;> simp [mergeVal1, truthy]
  · intro S U k hk
    rw [deepMergeV2_eq]
    simp only [objKeys, fieldsOf]
    exact dmLoop2Spec_keys_superset U S hk
  · intro S U k sv hpw hsv hk
    rw [deepMergeV2_eq]
    simp only [objLookup, fieldsOf]
    have hflat : (truthy sv && isObjectType sv && !isArrayV sv) = false := by
      rcases hsv with rfl | rfl <;> simp [truthy]
    exact dmLoop2Spec_lookup_flat hflat U S hpw (mem_of_lookupField_eq_some hk)

/-- Witness for C10 at `S = {x: 5}`, `U = {x: null}`. -/
theorem claimC10_witness :
    objLookup (deepMerge (JSVal.vObj [("x", JSVal.vNum 5)])
      (JSVal.vObj [("x", JSVal.vNull)])) "x" = some JSVal.vNull := by
  exact claimC10_no_key_deletion.2.1 [("x", JSVal.vNum 5)] [("x", JSVal.vNull)]
    "x" JSVal.vNull (by simp) (Or.inr rfl) (by simp [lookupField])

/-! Middleware registry (`src/middleware-registry.ts`).

`add` pushes the entry and re-sorts the array with the comparator
`(a, b) => (b.priority || 0) - (a.priority || 0)`.  ECMAScript guarantees
`Array.prototype.sort` is stable, and a stable sort under a consistent
comparator is uniquely determined, so the model uses insertion sort with
the non-strict descending relation, which is stable.  The `id` field
records registration order (the code draws random string ids; here ids are
the registration counter, strictly increasing). -/

structure RegEntry where
  id : Nat
  priority : Int
  deriving DecidableEq

/-- Descending-priority comparison used by the registry's sort. -/
def mwGE (a b : RegEntry) : Prop := b.priority ≤ a.priority

instance : DecidableRel mwGE := fun a b => by
  unfold mwGE
  infer_instance

instance : IsTotal RegEntry mwGE :=
  ⟨fun a b => (le_total b.priority a.priority).imp id id⟩

instance : IsTrans RegEntry mwGE :=
  ⟨fun _ _ _ h1 h2 => le_trans h2 h1⟩

/-- The registry's stable descending sort. -/
def mwSortDesc (l : List RegEntry) : List RegEntry := List.insertionSort mwGE l

/-- Models `MiddlewareRegistry.add`: push, then re-sort descending by priority. -/
def registryAdd (l : List RegEntry) (e : RegEntry) : List RegEntry :=
  mwSortDesc (l ++ [e])

/-- Models `MiddlewareRegistry.remove`: filter out the entry with the given id. -/
def registryRemove (l : List RegEntry) (i : Nat) : List RegEntry :=
  l.filter (fun m => m.id != i)

/-- Strict "executes earlier" order: higher priority, or equal priority and
earlier registration. -/
def mwOrd (a b : RegEntry) : Prop :=
  b.priority < a.priority ∨ (a.priority = b.priority ∧ a.id < b.id)

instance (a b : RegEntry) : Decidable (mwOrd a b) := by
  unfold mwOrd
  infer_instance

/-- The registry invariant: sorted by descending priority with ties in
registration order. -/
def regOrdered (l : List RegEntry) : Prop := l.Pairwise mwOrd

instance (l : List RegEntry) : Decidable (regOrdered l) := by
  unfold regOrdered
  infer_instance

/-- Inserting after all entries of greater-or-equal priority: the position a
stable descending sort gives a newly appended entry. -/
def insertAfterGE : List RegEntry → RegEntry → List RegEntry
  | [], e => [e]
  | x :: xs, e =>
      if e.priority ≤ x.priority then x :: insertAfterGE xs e else e :: x :: xs

theorem regOrdered_sorted {l : List RegEntry} (h : regOrdered l) :
    l.Sorted mwGE := by
  refine h.imp ?_
  intro a b hab
  rcases hab with hlt | ⟨heq, _⟩
  · exact le_of_lt hlt
  · exact le_of_eq heq.symm

theorem mem_insertAfterGE {y e : RegEntry} :
    ∀ {l : List RegEntry}, y ∈ insertAfterGE l e ↔ y ∈ l ∨ y = e := by
  intro l
  induction l with
  | nil => simp [insertAfterGE]
  | cons x xs ih =>
      by_cases h : e.priority ≤ x.priority
      · simp only [insertAfterGE, if_pos h, List.mem_cons, ih]
        tauto
      · simp only [insertAfterGE, if_neg h, List.mem_cons]
        tauto

theorem insertAfterGE_nil (e : RegEntry) : insertAfterGE [] e = [e] := rfl

theorem insertAfterGE_cons (x : RegEntry) (xs : List RegEntry) (e : RegEntry) :
    insertAfterGE (x :: xs) e =
      if e.priority ≤ x.priority then x :: insertAfterGE xs e else e :: x :: xs := rfl

theorem orderedInsert_cons_eq (x y : RegEntry) (l : List RegEntry) :
    List.orderedInsert mwGE x (y :: l) =
      if mwGE x y then x :: y :: l else y :: List.orderedInsert mwGE x l := rfl

theorem sortDesc_append_single :
    ∀ (l : List RegEntry) (e : RegEntry), l.Sorted mwGE →
      mwSortDesc (l ++ [e]) = insertAfterGE l e := by
  intro l
  induction l with
  | nil => intro e _; simp [mwSortDesc, List.insertionSort, insertAfterGE]
  | cons x xs ih =>
      intro e hs
      have hxall : ∀ y ∈ xs, mwGE x y := (List.sorted_cons.mp hs).1
      have hxs : xs.Sorted mwGE := (List.sorted_cons.mp hs).2
      have lhs1 : mwSortDesc ((x :: xs) ++ [e]) =
          List.orderedInsert mwGE x (insertAfterGE xs e) := by
        simp only [mwSortDesc, List.cons_append, List.insertionSort]
        exact congrArg (List.orderedInsert mwGE x) (ih e hxs)
      rw [lhs1]
      by_cases h : e.priority ≤ x.priority
      · cases xs with
        | nil =>
            rw [insertAfterGE_nil, orderedInsert_cons_eq,
              if_pos (show mwGE x e from h), insertAfterGE_cons, if_pos h,
              insertAfterGE_nil]
        | cons y ys =>
            have hxy : mwGE x y := hxall y (List.mem_cons_self _ _)
            by_cases hy : e.priority ≤ y.priority
            · rw [insertAfterGE_cons y ys e, if_pos hy, orderedInsert_cons_eq,
                if_pos hxy, insertAfterGE_cons x (y :: ys) e, if_pos h,
                insertAfterGE_cons y ys e, if_pos hy]
            · rw [insertAfterGE_cons y ys e, if_neg hy, orderedInsert_cons_eq,
                if_pos (show mwGE x e from h), insertAfterGE_cons x (y :: ys) e,
                if_pos h, insertAfterGE_cons y ys e, if_neg hy]
      · have hxelt : x.priority < e.priority := lt_of_not_le h
        have hxs_lt : insertAfterGE xs e = e :: xs := by
          cases xs with
          | nil => simp [insertAfterGE]
          | cons y ys =>
              have hy : ¬ e.priority ≤ y.priority := by
                have h1 : y.priority ≤ x.priority := hxall y (List.mem_cons_self _ _)
                exact not_le_of_lt (lt_of_le_of_lt h1 hxelt)
              simp [insertAfterGE, hy]
        have hor : List.orderedInsert mwGE x xs = x :: xs := by
          cases xs with
          | nil => simp [List.orderedInsert]
          | cons y ys =>
              have hxy : mwGE x y := hxall y (List.mem_cons_self _ _)
              rw [orderedInsert_cons_eq, if_pos hxy]
        rw [hxs_lt, orderedInsert_cons_eq, if_neg (show ¬ mwGE x e from h), hor,
          insertAfterGE_cons, if_neg h]

theorem regOrdered_insertAfterGE :
    ∀ {l : List RegEntry} {e : RegEntry}, regOrdered l →
      (∀ x ∈ l, x.id < e.id) → regOrdered (insertAfterGE l e) := by
  intro l
  induction l with
  | nil => intro e _ _; simp [insertAfterGE, regOrdered]
  | cons x xs ih =>
      intro e hord hfresh
      have hx : ∀ y ∈ xs, mwOrd x y := (List.pairwise_cons.mp hord).1
      have hord' : regOrdered xs := (List.pairwise_cons.mp hord).2
      by_cases h : e.priority ≤ x.priority
      · rw [insertAfterGE, if_pos h]
        refine List.pairwise_cons.mpr ⟨?_, ih hord'
          (fun y hy => hfresh y (List.mem_cons_of_mem _ hy))⟩
        intro y hy
        rcases mem_insertAfterGE.mp hy with hy | rfl
        · exact hx y hy
        · rcases lt_or_eq_of_le h with hlt | heq
          · exact Or.inl hlt
          · exact Or.inr ⟨heq.symm, hfresh x (List.mem_cons_self _ _)⟩
      · rw [insertAfterGE, if_neg h]
        have hxe : x.priority < e.priority := lt_of_not_le h
        refine List.pairwise_cons.mpr ⟨?_, hord⟩
        intro y hy
        rcases List.mem_cons.mp hy with rfl | hy
        · exact Or.inl hxe
        · left
          have h1 : y.priority ≤ x.priority := by
            rcases hx y hy with hlt | ⟨heq, _⟩
            · exact le_of_lt hlt
            · exact le_of_eq heq.symm
          exact lt_of_le_of_lt h1 hxe

/-- C7.  The middleware list stays sorted by descending priority after every
add and remove, ties broken by registration order (the `id` counter), and
the spec's four-entry example executes in order A, B, C, D (phases iterate
the list front to back). -/
theorem claimC7_middleware_order :
    (∀ (l : List RegEntry) (e : RegEntry), (registryAdd l e).Sorted mwGE) ∧
    (∀ (l : List RegEntry) (e : RegEntry), regOrdered l →
        (∀ x ∈ l, x.id < e.id) → regOrdered (registryAdd l e)) ∧
    (∀ (l : List RegEntry) (i : Nat), regOrdered l →
        regOrdered (registryRemove l i)) ∧
    registryAdd (registryAdd (registryAdd (registryAdd []
        ⟨0, 10⟩) ⟨1, 5⟩) ⟨2, 5⟩) ⟨3, 1⟩ =
      [⟨0, 10⟩, ⟨1, 5⟩, ⟨2, 5⟩, ⟨3, 1⟩] := by
  refine ⟨?_, ?_, ?_, ?_⟩
  · intro l e
    exact List.sorted_insertionSort mwGE (l ++ [e])
  · intro l e hord hfresh
    rw [registryAdd, sortDesc_append_single l e (regOrdered_sorted hord)]
    exact regOrdered_insertAfterGE hord hfresh
  · intro l i hord
    exact hord.sublist (List.filter_sublist l)
  · decide

/-- Witness for C7: adding a fresh tied-priority entry keeps the invariant. -/
theorem claimC7_witness :
    regOrdered (registryAdd [⟨0, 10⟩, ⟨1, 5⟩] ⟨2, 5⟩) := by
  exact claimC7_middleware_order.2.1 [⟨0, 10⟩, ⟨1, 5⟩] ⟨2, 5⟩
    (by decide) (by decide)

/-! Middleware execution (`src/middleware-registry.ts`, both variants).

The first registry variant's `execute` wraps each hook:
```
for (const m of this.middleware) {
  try { await m.onStateChange?.(prev, next); }
  catch (error) { m.onError?.(error as Error); }
}
```
The `m.onError?.(error)` call runs inside the catch block but not inside
another try: if the handler itself throws, that exception escapes
`execute`, rejects the promise, and the remaining entries never run.
The second variant has no `try`/`catch` (and no per-middleware `onError`):
```
for (const m of this.middleware) {
  if (!m.condition || m.condition(prev, next)) {
    await m.onStateChange(prev, next);
  }
}
```
Hooks and handlers are modelled as functions into `Except String Unit`
(a thrown exception is the `error` case); execution produces an event
trace and an `Option String` propagation channel. -/

/-- Middleware entry of the first registry variant (`NextStateMiddleware`):
optional `onStateChange` hook, optional `onError` handler.  Either may
throw. -/
structure MWEntryA (σ : Type) where
  onStateChange : Option (σ → σ → Except String Unit)
  onError : Option (String → Except String Unit)

/-- Middleware entry of the second registry variant
(`NextStateMiddlewareConfig`): optional `condition`, mandatory hook. -/
structure MWEntryB (σ : Type) where
  condition : Option (σ → σ → Bool)
  onStateChange : σ → σ → Except String Unit

/-- Observable events of one execution pass. -/
inductive MWEvent where
  | hookRan : Nat → MWEvent
  | hookThrew : Nat → String → MWEvent
  | onErrorRan : Nat → String → MWEvent
  | onErrorThrew : Nat → String → MWEvent
  | skipped : Nat → MWEvent
  deriving DecidableEq

/-- The first variant's `execute` loop from entry index `i` on: a hook
error is caught and routed to that entry's own `onError` and the loop
continues — unless the `onError` handler itself throws, in which case its
exception escapes the catch (`some e2` in the second component) and the
remaining entries never run. -/
def executeCatch {σ : Type} (i : Nat) (prev next : σ) :
    List (MWEntryA σ) → List MWEvent × Option String
  | [] => ([], none)
  | m :: rest =>
      match m.onStateChange with
      | none =>
          let r := executeCatch (i + 1) prev next rest
          (MWEvent.skipped i :: r.1, r.2)
      | some f =>
          match f prev next with
          | .ok _ =>
              let r := executeCatch (i + 1) prev next rest
              (MWEvent.hookRan i :: r.1, r.2)
          | .error e =>
              match m.onError with
              | none =>
                  let r := executeCatch (i + 1) prev next rest
                  (MWEvent.hookThrew i e :: r.1, r.2)
              | some handler =>
                  match handler e with
                  | .ok _ =>
                      let r := executeCatch (i + 1) prev next rest
                      (MWEvent.hookThrew i e :: MWEvent.onErrorRan i e :: r.1,
                        r.2)
                  | .error e2 =>
                      ([MWEvent.hookThrew i e, MWEvent.onErrorRan i e,
                        MWEvent.onErrorThrew i e2], some e2)

/-- Models `MiddlewareRegistry.execute` of the first variant. -/
def executeRegistryCatch {σ : Type} (ms : List (MWEntryA σ)) (prev next : σ) :
    List MWEvent × Option String :=
  executeCatch 0 prev next ms

/-- Commit followed by the after-phase: the committed state is computed
before the hooks run and is returned regardless of hook failures. -/
def commitThenAfterPhase {σ : Type} (merge : σ → σ → σ) (st upd : σ)
    (ms : List (MWEntryA σ)) : σ × (List MWEvent × Option String) :=
  (merge st upd, executeRegistryCatch ms st (merge st upd))

/-- States that an entry's error path cannot rethrow on this transition:
if its hook throws and an `onError` handler is present, the handler
returns normally on that error. -/
def onErrorSafe {σ : Type} (prev next : σ) (m : MWEntryA σ) : Prop :=
  match m.onStateChange with
  | none => True
  | some f =>
      match f prev next with
      | Except.ok _ => True
      | Except.error e =>
          match m.onError with
          | none => True
          | some handler => handler e = Except.ok ()

/-- The second variant's `execute` loop: no catch — the first hook error
stops the loop and propagates (`some e` in the second component). -/
def executeNoCatch {σ : Type} (i : Nat) (prev next : σ) :
    List (MWEntryB σ) → List MWEvent × Option String
  | [] => ([], none)
  | m :: rest =>
      if (match m.condition with | none => true | some c => c prev next) then
        match m.onStateChange prev next with
        | .ok _ =>
            let r := executeNoCatch (i + 1) prev next rest
            (MWEvent.hookRan i :: r.1, r.2)
        | .error e => ([MWEvent.hookThrew i e], some e)
      else
        let r := executeNoCatch (i + 1) prev next rest
        (MWEvent.skipped i :: r.1, r.2)

/-- Models `MiddlewareRegistry.execute` of the second variant. -/
def executeRegistryNoCatch {σ : Type} (ms : List (MWEntryB σ)) (prev next : σ) :
    List MWEvent × Option String :=
  executeNoCatch 0 prev next ms

theorem executeCatch_cons_safe {σ : Type} (prev next : σ) (m : MWEntryA σ)
    (rest : List (MWEntryA σ)) (i : Nat) (hm : onErrorSafe prev next m) :
    ∃ hd : List MWEvent,
      executeCatch i prev next (m :: rest) =
        (hd ++ (executeCatch (i + 1) prev next rest).1,
         (executeCatch (i + 1) prev next rest).2) ∧
      ∀ f, m.onStateChange = some f →
        (∀ u, f prev next = Except.ok u → MWEvent.hookRan i ∈ hd) ∧
        (∀ e, f prev next = Except.error e →
          MWEvent.hookThrew i e ∈ hd ∧
          (m.onError.isSome = true → MWEvent.onErrorRan i e ∈ hd)) := by
  cases hsc : m.onStateChange with
  | none =>
      refine ⟨[MWEvent.skipped i], ?_, ?_⟩
      · simp only [executeCatch, hsc, List.singleton_append]
      · intro f hf
        exact absurd hf (by simp)
  | some f0 =>
      cases hfe : f0 prev next with
      | ok u0 =>
          refine ⟨[MWEvent.hookRan i], ?_, ?_⟩
          · simp only [executeCatch, hsc, hfe, List.singleton_append]
          · intro f hf
            obtain rfl : f0 = f := Option.some.inj hf
            constructor
            · intro u _
              exact List.mem_singleton.mpr rfl
            · intro e he
              rw [hfe] at he
              exact Except.noConfusion he
      | error e0 =>
          cases hon : m.onError with
          | none =>
              refine ⟨[MWEvent.hookThrew i e0], ?_, ?_⟩
              · simp only [executeCatch, hsc, hfe, hon, List.singleton_append]
              · intro f hf
                obtain rfl : f0 = f := Option.some.inj hf
                constructor
                · intro u hu
                  rw [hfe] at hu
                  exact Except.noConfusion hu
                · intro e he
                  rw [hfe] at he
                  obtain rfl : e0 = e := Except.error.inj he
                  refine ⟨List.mem_singleton.mpr rfl, ?_⟩
                  intro hoe
                  simp at hoe
          | some handler =>
              have hok : handler e0 = Except.ok () := by
                simpa [onErrorSafe, hsc, hfe, hon] using hm
              refine ⟨[MWEvent.hookThrew i e0, MWEvent.onErrorRan i e0], ?_, ?_⟩
              · simp only [executeCatch, hsc, hfe, hon, hok]
                rfl
              · intro f hf
                obtain rfl : f0 = f := Option.some.inj hf
                constructor
                · intro u hu
                  rw [hfe] at hu
                  exact Except.noConfusion hu
                · intro e he
                  rw [hfe] at he
                  obtain rfl : e0 = e := Except.error.inj he
                  exact ⟨List.mem_cons_self _ _, fun _ =>
                    List.mem_cons_of_mem _ (List.mem_singleton.mpr rfl)⟩

theorem executeCatch_safe {σ : Type} (prev next : σ) :
    ∀ (ms : List (MWEntryA σ)) (i : Nat),
      (∀ m ∈ ms, onErrorSafe prev next m) →
      (executeCatch i prev next ms).2 = none ∧
      ∀ (j : Nat) (hj : j < ms.length) (f : σ → σ → Except String Unit),
        (ms.get ⟨j, hj⟩).onStateChange = some f →
        (∀ u, f prev next = Except.ok u →
          MWEvent.hookRan (i + j) ∈ (executeCatch i prev next ms).1) ∧
        (∀ e, f prev next = Except.error e →
          MWEvent.hookThrew (i + j) e ∈ (executeCatch i prev next ms).1 ∧
          ((ms.get ⟨j, hj⟩).onError.isSome = true →
            MWEvent.onErrorRan (i + j) e ∈ (executeCatch i prev next ms).1)) := by
  intro ms
  induction ms with
  | nil =>
      intro i _
      exact ⟨rfl, fun j hj => absurd hj (by simp)⟩
  | cons m rest ih =>
      intro i hsafe
      obtain ⟨hd, hEq, hPr⟩ := executeCatch_cons_safe prev next m rest i
        (hsafe m (List.mem_cons_self _ _))
      have ihr := ih (i + 1) (fun m2 hm2 => hsafe m2 (List.mem_cons_of_mem _ hm2))
      constructor
      · rw [hEq]
        exact ihr.1
      · intro j hj f hf
        cases j with
        | zero =>
            have hf0 : m.onStateChange = some f := hf
            have hp := hPr f hf0
            rw [hEq]
            constructor
            · intro u hu
              simp only [Nat.add_zero]
              exact List.mem_append_left _ (hp.1 u hu)
            · intro e he
              refine ⟨?_, ?_⟩
              · simp only [Nat.add_zero]
                exact List.mem_append_left _ ((hp.2 e he).1)
              · intro hoe
                simp only [Nat.add_zero]
                exact List.mem_append_left _ ((hp.2 e he).2 hoe)
        | succ j2 =>
            have hj2 : j2 < rest.length := Nat.lt_of_succ_lt_succ hj
            have hf2 : (rest.get ⟨j2, hj2⟩).onStateChange = some f := hf
            have base := ihr.2 j2 hj2 f hf2
            have harith : i + (j2 + 1) = (i + 1) + j2 := by omega
            rw [hEq]
            constructor
            · intro u hu
              rw [harith]
              exact List.mem_append_right _ (base.1 u hu)
            · intro e he
              rw [harith]
              exact ⟨List.mem_append_right _ ((base.2 e he).1),
                fun hoe => List.mem_append_right _ ((base.2 e he).2 hoe)⟩

/-- C4 (amended).  In the registry variant whose `execute` wraps each hook
in `try`/`catch` (the variant with `onError` support), a throwing
after-phase hook is caught and routed to that same middleware's `onError`;
provided no `onError` handler itself throws on this transition, nothing
propagates to the caller and every entry still executes.  An `onError`
that throws, however, escapes the catch, propagates, and halts the
remaining entries.  The committed state is computed before the after-phase
and is unaffected in every case.  In the second registry variant
(condition-based, no `onError`), any throwing hook propagates and halts
the remaining entries — see the counterexample. -/
theorem claimC4_amended :
    (∀ (σ : Type) (merge : σ → σ → σ) (st upd : σ) (ms : List (MWEntryA σ)),
        (commitThenAfterPhase merge st upd ms).1 = merge st upd) ∧
    (∀ (σ : Type) (prev next : σ) (ms : List (MWEntryA σ)),
        (∀ m ∈ ms, onErrorSafe prev next m) →
        (executeRegistryCatch ms prev next).2 = none ∧
        ∀ (j : Nat) (hj : j < ms.length) (f : σ → σ → Except String Unit),
          (ms.get ⟨j, hj⟩).onStateChange = some f →
          (∀ u, f prev next = Except.ok u →
            MWEvent.hookRan j ∈ (executeRegistryCatch ms prev next).1) ∧
          (∀ e, f prev next = Except.error e →
            MWEvent.hookThrew j e ∈ (executeRegistryCatch ms prev next).1 ∧
            ((ms.get ⟨j, hj⟩).onError.isSome = true →
              MWEvent.onErrorRan j e ∈ (executeRegistryCatch ms prev next).1))) ∧
    (∀ (σ : Type) (prev next : σ) (m : MWEntryA σ) (rest : List (MWEntryA σ))
        (f : σ → σ → Except String Unit) (handler : String → Except String Unit)
        (e e2 : String),
        m.onStateChange = some f → f prev next = Except.error e →
        m.onError = some handler → handler e = Except.error e2 →
        executeRegistryCatch (m :: rest) prev next =
          ([MWEvent.hookThrew 0 e, MWEvent.onErrorRan 0 e,
            MWEvent.onErrorThrew 0 e2], some e2)) := by
  refine ⟨?_, ?_, ?_⟩
  · intro σ merge st upd ms
    rfl
  · intro σ prev next ms hsafe
    have h := executeCatch_safe prev next ms 0 hsafe
    refine ⟨h.1, ?_⟩
    intro j hj f hf
    have hj0 := h.2 j hj f hf
    simpa [executeRegistryCatch] using hj0
  · intro σ prev next m rest f handler e e2 hsc hfe hon hh2
    simp only [executeRegistryCatch, executeCatch, hsc, hfe, hon, hh2]

/-- Witness for C4 (amended): with entry 0 throwing but its `onError`
returning normally, the error is routed to that `onError`, entry 1 still
runs and nothing propagates; with entry 0's `onError` rethrowing instead,
execution stops with the rethrown error and entry 1 never appears. -/
theorem claimC4_amended_witness :
    MWEvent.hookThrew 0 "boom" ∈ (executeRegistryCatch
      ([⟨some (fun _ _ => Except.error "boom"), some (fun _ => Except.ok ())⟩,
        ⟨some (fun _ _ => Except.ok ()), none⟩] : List (MWEntryA Int)) 0 1).1 ∧
    MWEvent.onErrorRan 0 "boom" ∈ (executeRegistryCatch
      ([⟨some (fun _ _ => Except.error "boom"), some (fun _ => Except.ok ())⟩,
        ⟨some (fun _ _ => Except.ok ()), none⟩] : List (MWEntryA Int)) 0 1).1 ∧
    MWEvent.hookRan 1 ∈ (executeRegistryCatch
      ([⟨some (fun _ _ => Except.error "boom"), some (fun _ => Except.ok ())⟩,
        ⟨some (fun _ _ => Except.ok ()), none⟩] : List (MWEntryA Int)) 0 1).1 ∧
    (executeRegistryCatch
      ([⟨some (fun _ _ => Except.error "boom"), some (fun _ => Except.ok ())⟩,
        ⟨some (fun _ _ => Except.ok ()), none⟩] : List (MWEntryA Int)) 0 1).2 =
      none ∧
    executeRegistryCatch
      ([⟨some (fun _ _ => Except.error "boom"),
          some (fun _ => Except.error "rethrown")⟩,
        ⟨some (fun _ _ => Except.ok ()), none⟩] : List (MWEntryA Int)) 0 1 =
      ([MWEvent.hookThrew 0 "boom", MWEvent.onErrorRan 0 "boom",
        MWEvent.onErrorThrew 0 "rethrown"], some "rethrown") := by
  have hsafe : ∀ m ∈ ([⟨some (fun _ _ => Except.error "boom"),
        some (fun _ => Except.ok ())⟩,
      ⟨some (fun _ _ => Except.ok ()), none⟩] : List (MWEntryA Int)),
      onErrorSafe (0 : Int) 1 m := by
    intro m hm
    rcases List.mem_cons.mp hm with rfl | hm
    · rfl
    · rcases List.mem_cons.mp hm with rfl | hm
      · trivial
      · simp at hm
  have H := claimC4_amended.2.1 Int 0 1
    [⟨some (fun _ _ => Except.error "boom"), some (fun _ => Except.ok ())⟩,
     ⟨some (fun _ _ => Except.ok ()), none⟩] hsafe
  refine ⟨?_, ?_, ?_, H.1, ?_⟩
  · exact ((H.2 0 (by simp) (fun _ _ => Except.error "boom") rfl).2 "boom" rfl).1
  · exact ((H.2 0 (by simp) (fun _ _ => Except.error "boom") rfl).2 "boom" rfl).2 rfl
  · exact (H.2 1 (by simp) (fun _ _ => Except.ok ()) rfl).1 () rfl
  · exact claimC4_amended.2.2 Int 0 1
      ⟨some (fun _ _ => Except.error "boom"),
        some (fun _ => Except.error "rethrown")⟩
      [⟨some (fun _ _ => Except.ok ()), none⟩]
      (fun _ _ => Except.error "boom") (fun _ => Except.error "rethrown")
      "boom" "rethrown" rfl rfl rfl rfl

/-- C4 counterexample.  The second registry variant's `execute` has no
`try`/`catch`: with entry 0 throwing `"boom"` and entry 1 well-behaved, the
error propagates to the caller (`some "boom"`) and entry 1 never runs —
contradicting the claim that after-phase errors are always caught, routed
to the same middleware's `onError`, and never prevent the remaining
entries from executing. -/
theorem claimC4_counterexample :
    executeRegistryNoCatch
        [⟨none, fun _ _ => Except.error "boom"⟩,
         ⟨none, fun _ _ => Except.ok ()⟩] (0 : Int) 1 =
      ([MWEvent.hookThrew 0 "boom"], some "boom") ∧
    MWEvent.hookRan 1 ∉ [MWEvent.hookThrew 0 "boom"] := by
  exact ⟨rfl, by decide⟩

/-! The `createNextState` middleware chain (`src/core.ts`).

```
setInternalState((prevState) => {
  const nextState = typeof newState === 'function' ? newState(prevState) : newState;
  return middleware.reduce((acc, fn) => fn(prevState, acc), nextState);
});
```
There is no veto: every middleware function runs once per update, each
receiving the previous middleware's return value (whatever it is,
including `null`), and the final reduce result becomes the committed
state. -/

/-- The committed state: the left fold of the middleware list over the
resolved update. -/
def chainMiddleware (ms : List (JSVal → JSVal → JSVal)) (prev resolved : JSVal) :
    JSVal :=
  ms.foldl (fun acc f => f prev acc) resolved

/-- Trace of the reduce: for each middleware in order, the accumulated
value it received and the value it returned. -/
def chainTrace : List (JSVal → JSVal → JSVal) → JSVal → JSVal →
    List (JSVal × JSVal)
  | [], _, _ => []
  | f :: rest, prev, acc => (acc, f prev acc) :: chainTrace rest prev (f prev acc)

/-- C3 counterexample.  `core.ts` has no veto short-circuit: with
`m1 = () => null` and `m2 = (_, acc) => ({received: acc})`, updating from
previous state `0` with update `1` runs `m2` after `m1` returned `null`
(the trace has both steps, `m2` receiving `null`), and commits `m2`'s
result — the state changes, `getState` does not return the previous
state, and the subscribers see the new value.  The claim's demanded
outcome (stop after `m1`, keep the previous state, notify nobody) is
false on all three counts. -/
theorem claimC3_counterexample :
    chainTrace
        [fun _ _ => JSVal.vNull,
         fun _ acc => JSVal.vObj [("received", acc)]]
        (JSVal.vNum 0) (JSVal.vNum 1) =
      [(JSVal.vNum 1, JSVal.vNull),
       (JSVal.vNull, JSVal.vObj [("received", JSVal.vNull)])] ∧
    chainMiddleware
        [fun _ _ => JSVal.vNull,
         fun _ acc => JSVal.vObj [("received", acc)]]
        (JSVal.vNum 0) (JSVal.vNum 1) =
      JSVal.vObj [("received", JSVal.vNull)] ∧
    JSVal.vObj [("received", JSVal.vNull)] ≠ JSVal.vNum 0 := by
  exact ⟨rfl, rfl, by simp⟩

/-- C3 (amended).  The `core.ts` middleware chain never short-circuits: the
trace always has exactly one step per middleware (null results included),
and the committed state is the last middleware's return value (or the
resolved update when the list is empty). -/
theorem claimC3_amended :
    (∀ (ms : List (JSVal → JSVal → JSVal)) (prev resolved : JSVal),
        (chainTrace ms prev resolved).length = ms.length) ∧
    (∀ (ms : List (JSVal → JSVal → JSVal)) (prev resolved : JSVal),
        chainMiddleware ms prev resolved =
          ((chainTrace ms prev resolved).map Prod.snd).getLastD resolved) := by
  constructor
  · intro ms prev
    induction ms with
    | nil => intro resolved; rfl
    | cons f rest ih =>
        intro resolved
        simp only [chainTrace, List.length_cons, ih]
  · intro ms prev
    induction ms with
    | nil => intro resolved; rfl
    | cons f rest ih =>
        intro resolved
        simp only [chainMiddleware, List.foldl_cons, chainTrace, List.map_cons,
          List.getLastD_cons]
        exact ih (f prev resolved)

/-! Migration engine (`MigrationManager`, storage load).

```
addMigration(version, migrate) {
  if (version >= this.currentVersion) { throw new Error(...); }
  this.migrations.set(version, migrate);
}
async migrateData(fromVersion, data) {
  let currentData = data; let currentVersion = fromVersion;
  const sortedMigrations = Array.from(this.migrations.entries())
    .filter(([version]) => version > fromVersion && version <= this.currentVersion)
    .sort(([a], [b]) => a - b);
  for (const [version, migrate] of sortedMigrations) {
    currentData = await migrate({ fromVersion: currentVersion, toVersion: version, data: currentData });
    currentVersion = version;
  }
  return currentData;
}
```
Migration functions receive the context as `fromVersion → toVersion → data`.
`Map` keys are unique, so the numeric ascending sort has a unique result;
insertion sort with `≤` on keys models it. -/

structure MigrationState (Data : Type) where
  currentVersion : Int
  migrations : List (Int × (Int → Int → Data → Data))

/-- Models `Map.prototype.set`: overwrite in place, else append (insertion order). -/
def setEntry {α : Type} : List (Int × α) → Int → α → List (Int × α)
  | [], k, v => [(k, v)]
  | (k0, w) :: rest, k, v =>
      if k0 = k then (k0, v) :: rest else (k0, w) :: setEntry rest k v

/-- Models `Map.prototype.get`. -/
def lookupEntry {α : Type} : List (Int × α) → Int → Option α
  | [], _ => none
  | (k0, v) :: rest, k => if k0 = k then some v else lookupEntry rest k

/-- Models `MigrationManager.addMigration`: throws when `version >= currentVersion`. -/
def addMigration {Data : Type} (m : MigrationState Data) (version : Int)
    (f : Int → Int → Data → Data) : Except String (MigrationState Data) :=
  if m.currentVersion ≤ version then
    Except.error "Migration version must be less than current version"
  else
    Except.ok { m with migrations := setEntry m.migrations version f }

/-- Models `MigrationManager.migrateData`. -/
def migrateData {Data : Type} (m : MigrationState Data) (fromVersion : Int)
    (d : Data) : Data :=
  let sorted := List.insertionSort (fun a b => a.1 ≤ b.1)
    (m.migrations.filter
      (fun p => decide (fromVersion < p.1) && decide (p.1 ≤ m.currentVersion)))
  (sorted.foldl (fun st p => (p.1, p.2 st.1 p.1 st.2)) (fromVersion, d)).2

/-- The stored-state load of `src/core/core.ts` (`storage.load`): use the
data verbatim when the stored version equals the configured one, apply the
single migration registered under the stored version when present, and
otherwise fall through (return `null`, so the caller keeps `initialState`). -/
def loadStored {Data : Type} (cur : Int) (migs : List (Int × (Data → Data)))
    (ver : Int) (d : Data) : Option Data :=
  if ver = cur then some d
  else
    match lookupEntry migs ver with
    | some f => some (f d)
    | none => none

/-- Builds `n` consecutive integers starting right after `start`. -/
def intRangeAsc : Nat → Int → List Int
  | 0, _ => []
  | n + 1, start => (start + 1) :: intRangeAsc n (start + 1)

/-- The ascending versions strictly above `fromV` and at most `cur`. -/
def versionsAbove (fromV cur : Int) : List Int :=
  intRangeAsc (cur - fromV).toNat fromV

/-- The spec's description of the migration chain (§4.3): walk the versions
strictly greater than `fromVersion` up to the current version in ascending
order, applying each registered migration and threading the data. -/
def specMigrateChain {Data : Type} (m : MigrationState Data) (fromV : Int)
    (d : Data) : Data :=
  ((versionsAbove fromV m.currentVersion).foldl
    (fun st v =>
      match lookupEntry m.migrations v with
      | some f => (v, f st.1 v st.2)
      | none => st) (fromV, d)).2

instance {α : Type} : IsTotal (Int × α) (fun a b => a.1 ≤ b.1) :=
  ⟨fun a b => le_total a.1 b.1⟩

instance {α : Type} : IsTrans (Int × α) (fun a b => a.1 ≤ b.1) :=
  ⟨fun _ _ _ h1 h2 => le_trans h1 h2⟩

instance {α : Type} : IsAntisymm (Int × α) (fun a b => a.1 < b.1) :=
  ⟨fun _ _ h1 h2 => absurd (lt_trans h1 h2) (lt_irrefl _)⟩

theorem mem_of_lookupEntry_eq_some {α : Type} {k : Int} {v : α} :
    ∀ {l : List (Int × α)}, lookupEntry l k = some v → (k, v) ∈ l := by
  intro l
  induction l with
  | nil => intro h; simp [lookupEntry] at h
  | cons p rest ih =>
      intro h
      obtain ⟨k0, w⟩ := p
      by_cases h0 : k0 = k
      · subst h0
        rw [lookupEntry, if_pos rfl] at h
        obtain rfl : w = v := Option.some.injEq _ _ ▸ h
        exact List.mem_cons_self _ _
      · rw [lookupEntry, if_neg h0] at h
        exact List.mem_cons_of_mem _ (ih h)

theorem lookupEntry_eq_some_of_mem {α : Type} {k : Int} {v : α} :
    ∀ {l : List (Int × α)}, l.Pairwise (fun a b => a.1 ≠ b.1) →
      (k, v) ∈ l → lookupEntry l k = some v := by
  intro l
  induction l with
  | nil => intro _ h; simp at h
  | cons p rest ih =>
      intro hpw hm
      obtain ⟨k0, w⟩ := p
      rcases List.mem_cons.mp hm with h | h
      · obtain ⟨rfl, rfl⟩ := Prod.mk.injEq _ _ _ _ ▸ h
        rw [lookupEntry, if_pos rfl]
      · have hk0 : k0 ≠ k := by
          intro heq
          exact (List.pairwise_cons.mp hpw).1 (k, v) h (by simpa using heq)
        rw [lookupEntry, if_neg hk0]
        exact ih (List.pairwise_cons.mp hpw).2 h

theorem mem_intRangeAsc {v : Int} :
    ∀ {n : Nat} {start : Int},
      v ∈ intRangeAsc n start ↔ start < v ∧ v ≤ start + n := by
  intro n
  induction n with
  | zero => intro start; simp [intRangeAsc]
  | succ n ih =>
      intro start
      simp only [intRangeAsc, List.mem_cons, ih]
      omega

theorem mem_versionsAbove {fromV cur v : Int} :
    v ∈ versionsAbove fromV cur ↔ fromV < v ∧ v ≤ cur := by
  rw [versionsAbove, mem_intRangeAsc]
  omega

theorem pairwise_lt_intRangeAsc :
    ∀ (n : Nat) (start : Int), (intRangeAsc n start).Pairwise (fun a b => a < b) := by
  intro n
  induction n with
  | zero => intro start; simp [intRangeAsc]
  | succ n ih =>
      intro start
      refine List.pairwise_cons.mpr ⟨?_, ih (start + 1)⟩
      intro v hv
      exact (mem_intRangeAsc.mp hv).1

theorem pairwise_lt_versionsAbove (fromV cur : Int) :
    (versionsAbove fromV cur).Pairwise (fun a b => a < b) :=
  pairwise_lt_intRangeAsc _ _

theorem pairwise_key_lt_filterMap {α : Type} {migs : List (Int × α)} :
    ∀ {vs : List Int}, vs.Pairwise (fun a b => a < b) →
      (vs.filterMap
          (fun v => (lookupEntry migs v).map (fun f => (v, f)))).Pairwise
        (fun a b => a.1 < b.1) := by
  intro vs
  induction vs with
  | nil => intro _; simp
  | cons v rest ih =>
      intro hpw
      rw [List.filterMap_cons]
      cases hv : lookupEntry migs v with
      | none => exact ih (List.pairwise_cons.mp hpw).2
      | some f =>
          simp only [Option.map_some']
          refine List.pairwise_cons.mpr ⟨?_, ih (List.pairwise_cons.mp hpw).2⟩
          intro y hy
          rcases List.mem_filterMap.mp hy with ⟨w, hw, hwy⟩
          cases hw2 : lookupEntry migs w with
          | none => rw [hw2] at hwy; simp at hwy
          | some g =>
              rw [hw2] at hwy
              simp only [Option.map_some', Option.some.injEq] at hwy
              have : y.1 = w := by rw [← hwy]
              rw [this]
              exact (List.pairwise_cons.mp hpw).1 w hw

theorem sortedFilter_eq_rangeFilterMap {α : Type} (migs : List (Int × α))
    (fromV cur : Int) (hpw : migs.Pairwise (fun a b => a.1 ≠ b.1)) :
    List.insertionSort (fun a b => a.1 ≤ b.1)
        (migs.filter (fun p => decide (fromV < p.1) && decide (p.1 ≤ cur))) =
      (versionsAbove fromV cur).filterMap
        (fun v => (lookupEntry migs v).map (fun f => (v, f))) := by
  have hperm : List.Perm
      (List.insertionSort (fun a b => a.1 ≤ b.1)
        (migs.filter (fun p => decide (fromV < p.1) && decide (p.1 ≤ cur))))
      (migs.filter (fun p => decide (fromV < p.1) && decide (p.1 ≤ cur))) :=
    List.perm_insertionSort _ _
  have hs1le : List.Sorted (fun (a b : Int × α) => a.1 ≤ b.1)
      (List.insertionSort (fun a b => a.1 ≤ b.1)
        (migs.filter (fun p => decide (fromV < p.1) && decide (p.1 ≤ cur)))) :=
    List.sorted_insertionSort _ _
  have hpwf : (migs.filter
      (fun p => decide (fromV < p.1) && decide (p.1 ≤ cur))).Pairwise
      (fun a b => a.1 ≠ b.1) :=
    hpw.sublist (List.filter_sublist _)
  have hpw1 : (List.insertionSort (fun a b => a.1 ≤ b.1)
      (migs.filter (fun p => decide (fromV < p.1) && decide (p.1 ≤ cur)))).Pairwise
      (fun a b => a.1 ≠ b.1) :=
    (hperm.pairwise_iff (fun hab => hab.symm)).mpr hpwf
  have hs1 : (List.insertionSort (fun a b => a.1 ≤ b.1)
      (migs.filter (fun p => decide (fromV < p.1) && decide (p.1 ≤ cur)))).Pairwise
      (fun a b => a.1 < b.1) := by
    refine (hs1le.and hpw1).imp ?_
    intro a b hab
    exact lt_of_le_of_ne hab.1 hab.2
  have hs2 : ((versionsAbove fromV cur).filterMap
      (fun v => (lookupEntry migs v).map (fun f => (v, f)))).Pairwise
      (fun a b => a.1 < b.1) :=
    pairwise_key_lt_filterMap (pairwise_lt_versionsAbove fromV cur)
  have hmem : ∀ x : Int × α,
      (x ∈ List.insertionSort (fun a b => a.1 ≤ b.1)
          (migs.filter (fun p => decide (fromV < p.1) && decide (p.1 ≤ cur))) ↔
        x ∈ (versionsAbove fromV cur).filterMap
          (fun v => (lookupEntry migs v).map (fun f => (v, f)))) := by
    intro x
    rw [List.Perm.mem_iff hperm, List.mem_filter, List.mem_filterMap]
    constructor
    · rintro ⟨hmm, hcond⟩
      have hc : fromV < x.1 ∧ x.1 ≤ cur := by
        simpa using hcond
      refine ⟨x.1, mem_versionsAbove.mpr hc, ?_⟩
      rw [lookupEntry_eq_some_of_mem hpw (by simpa using hmm)]
      rfl
    · rintro ⟨v, hv, hvx⟩
      cases hlk : lookupEntry migs v with
      | none => rw [hlk] at hvx; simp at hvx
      | some f =>
          rw [hlk] at hvx
          simp only [Option.map_some', Option.some.injEq] at hvx
          subst hvx
          have := mem_versionsAbove.mp hv
          exact ⟨mem_of_lookupEntry_eq_some hlk, by simpa using this⟩
  have hnd1 : (List.insertionSort (fun a b => a.1 ≤ b.1)
      (migs.filter (fun p => decide (fromV < p.1) && decide (p.1 ≤ cur)))).Nodup :=
    hs1.imp (fun hab heq => absurd (heq ▸ hab) (lt_irrefl _))
  have hnd2 : ((versionsAbove fromV cur).filterMap
      (fun v => (lookupEntry migs v).map (fun f => (v, f)))).Nodup :=
    hs2.imp (fun hab heq => absurd (heq ▸ hab) (lt_irrefl _))
  have hp : List.Perm
      (List.insertionSort (fun a b => a.1 ≤ b.1)
        (migs.filter (fun p => decide (fromV < p.1) && decide (p.1 ≤ cur))))
      ((versionsAbove fromV cur).filterMap
        (fun v => (lookupEntry migs v).map (fun f => (v, f)))) :=
    (hnd1.subperm (fun x hx => (hmem x).mp hx)).antisymm
      (hnd2.subperm (fun x hx => (hmem x).mpr hx))
  exact List.eq_of_perm_of_sorted hp hs1 hs2

theorem foldl_filterMap_eq {α β γ : Type} (f : α → Option β) (g : γ → β → γ) :
    ∀ (l : List α) (init : γ),
      (l.filterMap f).foldl g init =
        l.foldl (fun st a => match f a with | some b => g st b | none => st)
          init := by
  intro l
  induction l with
  | nil => intro init; rfl
  | cons a rest ih =>
      intro init
      rw [List.filterMap_cons]
      cases hfa : f a with
      | none => simp only [List.foldl_cons, hfa, ih]
      | some b => simp only [List.foldl_cons, hfa, ih]

/-- C2.  `migrateData` applies exactly the registered migrations with
version strictly above `fromVersion` and at most the current version, in
ascending version order, threading data (and the context's version
bookkeeping) through the chain — it agrees with the spec's ascending-walk
description on every migration map with distinct keys — and the claim's
two concrete scenarios hold: from version 1 only `f2` then `f3` run, from
version 0 all of `f1`, `f2`, `f3` run, outputs threaded. -/
theorem claimC2_migration_chain :
    (∀ (Data : Type) (m : MigrationState Data) (fromV : Int) (d : Data),
        m.migrations.Pairwise (fun a b => a.1 ≠ b.1) →
        migrateData m fromV d = specMigrateChain m fromV d) ∧
    (∀ (Data : Type) (f1 f2 f3 : Int → Int → Data → Data) (d : Data),
        migrateData ⟨3, [(1, f1), (2, f2), (3, f3)]⟩ 1 d = f3 2 3 (f2 1 2 d) ∧
        migrateData ⟨3, [(1, f1), (2, f2), (3, f3)]⟩ 0 d =
          f3 2 3 (f2 1 2 (f1 0 1 d))) := by
  constructor
  · intro Data m fromV d hpw
    simp only [migrateData, specMigrateChain]
    rw [sortedFilter_eq_rangeFilterMap m.migrations fromV m.currentVersion hpw,
      foldl_filterMap_eq]
    refine congrArg Prod.snd (List.foldl_ext _ _ _ ?_)
    intro st v _
    cases lookupEntry m.migrations v <;> rfl
  · intro Data f1 f2 f3 d
    exact ⟨rfl, rfl⟩

/-- Witness for C2 at a concrete two-entry migration map over `List Int`
(each migration appends its target version, so the output records the
applied chain). -/
theorem claimC2_witness :
    migrateData
        (⟨3, [(1, fun _ _ l => l ++ [1]),
          (2, fun _ _ l => l ++ [2])]⟩ : MigrationState (List Int)) 0 [] =
      specMigrateChain
        ⟨3, [(1, fun _ _ l => l ++ [1]), (2, fun _ _ l => l ++ [2])]⟩ 0 [] := by
  exact claimC2_migration_chain.1 (List Int)
    ⟨3, [(1, fun _ _ l => l ++ [1]), (2, fun _ _ l => l ++ [2])]⟩ 0 []
    (by simp)

/-- C5 counterexample.  With migrations `{1: f1, 3: f3}`, current version 3
and stored version 1 (the claim's own scenario, gap at version 2),
`migrateData` does not fail: it silently skips the gap and applies only
`f3`.  Instantiated over `List Int` with `f1 = append 1`, `f3 = append 3`,
the run returns normally with `[3]` — `f1` was skipped and no
`MissingMigrationError` exists anywhere in the code. -/
theorem claimC5_counterexample :
    migrateData
        (⟨3, [(1, fun _ _ l => l ++ [1]),
          (3, fun _ _ l => l ++ [3])]⟩ : MigrationState (List Int)) 1 [] =
      [3] ∧
    ([3] : List Int) ≠ [1, 3] := by
  exact ⟨rfl, by decide⟩

/-- C5 (amended).  When the required ascending range has versions without a
registered migration, `migrateData` silently skips them and applies only
the registered migrations in ascending order; in the claim's scenario the
result is exactly `f3` applied once (with context `fromVersion = 1`,
`toVersion = 3`).  No error is raised. -/
theorem claimC5_amended :
    ∀ (Data : Type) (f1 f3 : Int → Int → Data → Data) (d : Data),
      migrateData ⟨3, [(1, f1), (3, f3)]⟩ 1 d = f3 1 3 d := by
  intro Data f1 f3 d
  rfl

/-- C6 counterexample.  A stored version (5) strictly greater than the
current version (3) is accepted as-is: `migrateData` returns the data
unchanged and raises nothing — there is no `FutureVersionError` in the
code. -/
theorem claimC6_counterexample :
    migrateData
        (⟨3, [(1, fun _ _ l => l ++ [1]),
          (2, fun _ _ l => l ++ [2])]⟩ : MigrationState (List Int)) 5 [99] =
      [99] ∧
    (3 : Int) < 5 := by
  exact ⟨rfl, by decide⟩

/-- C6 (amended).  For `fromVersion` greater than the current version,
`migrateData` applies no migration function and returns the data unchanged
(no error of any kind); and `storage.load` falls back to `null` (so the
store keeps `initialState`) whenever the stored version differs from the
current one and has no registered migration entry. -/
theorem claimC6_amended :
    (∀ (Data : Type) (m : MigrationState Data) (fromV : Int) (d : Data),
        m.currentVersion < fromV → migrateData m fromV d = d) ∧
    (∀ (Data : Type) (cur : Int) (migs : List (Int × (Data → Data)))
        (ver : Int) (d : Data),
        ver ≠ cur → lookupEntry migs ver = none →
        loadStored cur migs ver d = none) := by
  constructor
  · intro Data m fromV d hlt
    simp only [migrateData]
    have hnil : m.migrations.filter
        (fun p => decide (fromV < p.1) && decide (p.1 ≤ m.currentVersion)) = [] := by
      refine List.filter_eq_nil_iff.mpr ?_
      intro p _
      simp only [Bool.and_eq_true, decide_eq_true_eq, not_and]
      intro h1
      omega
    rw [hnil]
    rfl
  · intro Data cur migs ver d hne hlk
    simp [loadStored, hne, hlk]

/-- Witness for C6 (amended) at current version 3, stored version 5. -/
theorem claimC6_amended_witness :
    migrateData (⟨3, []⟩ : MigrationState Int) 5 42 = 42 ∧
    loadStored 3 ([] : List (Int × (Int → Int))) 5 42 = none := by
  exact ⟨claimC6_amended.1 Int ⟨3, []⟩ 5 42 (by decide),
    claimC6_amended.2 Int 3 [] 5 42 (by decide) rfl⟩

theorem mem_setEntry {α : Type} {p : Int × α} :
    ∀ {l : List (Int × α)} {k : Int} {v : α},
      p ∈ setEntry l k v → p ∈ l ∨ (p.1 = k ∧ p.2 = v) := by
  intro l
  induction l with
  | nil =>
      intro k v h
      simp only [setEntry, List.mem_singleton] at h
      subst h
      exact Or.inr ⟨rfl, rfl⟩
  | cons q rest ih =>
      intro k v h
      obtain ⟨k0, w⟩ := q
      by_cases h0 : k0 = k
      · rw [setEntry, if_pos h0] at h
        rcases List.mem_cons.mp h with h | h
        · subst h
          exact Or.inr ⟨h0, rfl⟩
        · exact Or.inl (List.mem_cons_of_mem _ h)
      · rw [setEntry, if_neg h0] at h
        rcases List.mem_cons.mp h with h | h
        · exact Or.inl (h ▸ List.mem_cons_self _ _)
        · rcases ih h with h | h
          · exact Or.inl (List.mem_cons_of_mem _ h)
          · exact Or.inr h

/-- C9.  `addMigration` throws exactly the guard error whenever
`version >= currentVersion`, so every registered entry's version stays
strictly below the (unchanged) current version; in particular a migration
targeting the current version itself can never be registered. -/
theorem claimC9_addMigration_guard :
    (∀ (Data : Type) (m : MigrationState Data) (v : Int)
        (f : Int → Int → Data → Data),
        m.currentVersion ≤ v →
        addMigration m v f =
          Except.error "Migration version must be less than current version") ∧
    (∀ (Data : Type) (m : MigrationState Data) (v : Int)
        (f : Int → Int → Data → Data) (m2 : MigrationState Data),
        addMigration m v f = Except.ok m2 →
        (∀ p ∈ m.migrations, p.1 < m.currentVersion) →
        m2.currentVersion = m.currentVersion ∧
        ∀ p ∈ m2.migrations, p.1 < m2.currentVersion) := by
  constructor
  · intro Data m v f h
    rw [addMigration, if_pos h]
  · intro Data m v f m2 hok hinv
    rw [addMigration] at hok
    by_cases h : m.currentVersion ≤ v
    · rw [if_pos h] at hok
      exact absurd hok (by simp)
    · rw [if_neg h] at hok
      have hm2 : m2 = { m with migrations := setEntry m.migrations v f } :=
        (Except.ok.injEq _ _ ▸ hok).symm
      subst hm2
      refine ⟨rfl, ?_⟩
      intro p hp
      rcases mem_setEntry hp with hp | ⟨hp1, _⟩
      · exact hinv p hp
      · rw [hp1]
        exact lt_of_not_le h

/-- Witness for C9: registering at the current version (3) throws, and a
successful registration at version 1 keeps all keys below 3. -/
theorem claimC9_witness :
    addMigration (⟨3, []⟩ : MigrationState Int) 3 (fun _ _ d => d + 1) =
      Except.error "Migration version must be less than current version" ∧
    ∀ p ∈ [((1 : Int), fun (_ _ : Int) (d : Int) => d + 1)], p.1 < (3 : Int) := by
  constructor
  · exact claimC9_addMigration_guard.1 Int ⟨3, []⟩ 3 (fun _ _ d => d + 1)
      (by decide)
  · exact (claimC9_addMigration_guard.2 Int ⟨3, []⟩ 1 (fun _ _ d => d + 1)
      ⟨3, [(1, fun _ _ d => d + 1)]⟩ rfl (by simp)).2

/-! Store commit (`create` in the store module, `setState`).

```
setState: (update: Partial<T>) => {
  state = { ...state, ...update };
  listeners.forEach((listener) => listener(state));
  storage.save(state);
},
```
`{ ...state, ...update }` allocates a fresh object; the old object is never
written to.  The heap is modelled explicitly: objects live at addresses
(list indices), `state` holds the current address, and a commit appends a
new object built by the shallow spread merge. -/

/-- Computes `{ ...a, ...b }`: the fields of `a`, overridden in place by `b`'s
fields, with `b`'s new keys appended. -/
def spreadMerge (a b : List (String × JSVal)) : List (String × JSVal) :=
  b.foldl (fun acc p => setField acc p.1 p.2) a

/-- The store: a heap of allocated state objects and the address of the
canonical state. -/
structure StoreHeap where
  heap : List (List (String × JSVal))
  stateAddr : Nat

/-- Models `getState()`: the object currently referenced by `state`. -/
def heapGetState (s : StoreHeap) : List (String × JSVal) :=
  (s.heap.get? s.stateAddr).getD []

/-- Models `setState(update)`: allocate `{ ...state, ...update }` at a fresh
address and repoint `state` to it. -/
def setStateStore (s : StoreHeap) (upd : List (String × JSVal)) : StoreHeap :=
  { heap := s.heap ++ [spreadMerge (heapGetState s) upd],
    stateAddr := s.heap.length }

/-- C8.  A committing `setState` allocates: the reference returned by
`getState()` afterwards is distinct from the one returned before, the
object behind the earlier reference is bit-for-bit unchanged, and the new
reference holds exactly the spread merge of the old state with the
update. -/
theorem claimC8_immutability :
    ∀ (s : StoreHeap) (upd : List (String × JSVal)),
      s.stateAddr < s.heap.length →
      (setStateStore s upd).stateAddr ≠ s.stateAddr ∧
      (setStateStore s upd).heap.get? s.stateAddr = s.heap.get? s.stateAddr ∧
      heapGetState (setStateStore s upd) = spreadMerge (heapGetState s) upd := by
  intro s upd h
  refine ⟨?_, ?_, ?_⟩
  · simp only [setStateStore]
    exact fun heq => absurd (heq ▸ h) (lt_irrefl _)
  · simp only [setStateStore]
    exact List.get?_append h
  · simp only [heapGetState, setStateStore, List.get?_concat_length]
    rfl

/-- Witness for C8 at a one-object heap holding `{x: 1}` updated with
`{x: 2}`. -/
theorem claimC8_witness :
    (setStateStore ⟨[[("x", JSVal.vNum 1)]], 0⟩ [("x", JSVal.vNum 2)]).stateAddr ≠ 0 ∧
    (setStateStore ⟨[[("x", JSVal.vNum 1)]], 0⟩ [("x", JSVal.vNum 2)]).heap.get? 0 =
      some [("x", JSVal.vNum 1)] ∧
    heapGetState (setStateStore ⟨[[("x", JSVal.vNum 1)]], 0⟩ [("x", JSVal.vNum 2)]) =
      [("x", JSVal.vNum 2)] := by
  have h := claimC8_immutability ⟨[[("x", JSVal.vNum 1)]], 0⟩
    [("x", JSVal.vNum 2)] (by simp)
  exact ⟨h.1, h.2.1, h.2.2⟩
